import Mathlib

/-!
Verification development for the ParamTools parameter-management core.

The executable code of the repository is a TypeScript implementation of the
`Parameters` class (file `part_009`, methods `adjust` and `updateParam`) on
top of a yup-based schema factory (file `part_010`, functions `inspectType`,
`getField`, `SchemaFactory`).  Those functions are embedded below as
executable Lean definitions.  Several operations named in the specification
(`extend`, `toArray`, `fromArray`, the validation/error machinery and the
clobber-disabled adjustment mode) are declared in the source only as empty
`// todo` stubs; the definitions for those are modelled from the
specification text and are marked `Modelled from the spec:` in their doc
comments.
-/

namespace ParamTools

/-- JSON-like runtime values.  Mirrors the `value` payloads of the
TypeScript `ValueObject` interface (`part_010`): numbers, strings,
booleans, nested arrays and the `null` delete sentinel.  JavaScript
numbers are embedded as rationals (no numeric rounding is exercised by
any claim); dates are carried as their ISO string representation. -/
inductive JVal where
  | null : JVal
  | num (q : ℚ) : JVal
  | str (s : String) : JVal
  | bool (b : Bool) : JVal
  | list (xs : List JVal) : JVal

mutual

/-- Decidable equality on JSON values (the automatic derivation does not
handle the nested list constructor). -/
def JVal.decEq : (a b : JVal) → Decidable (a = b)
  | .null, .null => isTrue rfl
  | .null, .num _ => isFalse (fun h => JVal.noConfusion h)
  | .null, .str _ => isFalse (fun h => JVal.noConfusion h)
  | .null, .bool _ => isFalse (fun h => JVal.noConfusion h)
  | .null, .list _ => isFalse (fun h => JVal.noConfusion h)
  | .num _, .null => isFalse (fun h => JVal.noConfusion h)
  | .num x, .num y =>
      if h : x = y then isTrue (by rw [h]) else isFalse (fun hh => h (JVal.num.inj hh))
  | .num _, .str _ => isFalse (fun h => JVal.noConfusion h)
  | .num _, .bool _ => isFalse (fun h => JVal.noConfusion h)
  | .num _, .list _ => isFalse (fun h => JVal.noConfusion h)
  | .str _, .null => isFalse (fun h => JVal.noConfusion h)
  | .str _, .num _ => isFalse (fun h => JVal.noConfusion h)
  | .str x, .str y =>
      if h : x = y then isTrue (by rw [h]) else isFalse (fun hh => h (JVal.str.inj hh))
  | .str _, .bool _ => isFalse (fun h => JVal.noConfusion h)
  | .str _, .list _ => isFalse (fun h => JVal.noConfusion h)
  | .bool _, .null => isFalse (fun h => JVal.noConfusion h)
  | .bool _, .num _ => isFalse (fun h => JVal.noConfusion h)
  | .bool _, .str _ => isFalse (fun h => JVal.noConfusion h)
  | .bool x, .bool y =>
      if h : x = y then isTrue (by rw [h]) else isFalse (fun hh => h (JVal.bool.inj hh))
  | .bool _, .list _ => isFalse (fun h => JVal.noConfusion h)
  | .list _, .null => isFalse (fun h => JVal.noConfusion h)
  | .list _, .num _ => isFalse (fun h => JVal.noConfusion h)
  | .list _, .str _ => isFalse (fun h => JVal.noConfusion h)
  | .list _, .bool _ => isFalse (fun h => JVal.noConfusion h)
  | .list xs, .list ys =>
      match JVal.decEqList xs ys with
      | isTrue h => isTrue (by rw [h])
      | isFalse h => isFalse (fun hh => h (JVal.list.inj hh))

/-- Decidable equality on lists of JSON values. -/
def JVal.decEqList : (xs ys : List JVal) → Decidable (xs = ys)
  | [], [] => isTrue rfl
  | [], _ :: _ => isFalse (fun h => List.noConfusion h)
  | _ :: _, [] => isFalse (fun h => List.noConfusion h)
  | x :: xs, y :: ys =>
      match JVal.decEq x y with
      | isFalse h1 => isFalse (fun h => h1 (List.cons.inj h).1)
      | isTrue h1 =>
          match JVal.decEqList xs ys with
          | isTrue h2 => isTrue (by rw [h1, h2])
          | isFalse h2 => isFalse (fun h => h2 (List.cons.inj h).2)

end

instance : DecidableEq JVal := JVal.decEq

/-- A Value Object: one record `{ <label>: <value>, ..., value: v }`.
`fields` holds every key except `value` in insertion order — the labels
and, when present, the `_auto` marker (in the TypeScript code `_auto` is
just another object key). -/
structure ValueObject where
  fields : List (String × JVal)
  value : JVal
deriving DecidableEq

/-- Property access `obj[key]` on the non-`value` keys of a Value Object:
the first binding of `k`, or `none` (JavaScript `undefined`) when absent. -/
def lookupField : List (String × JVal) → String → Option JVal
  | [], _ => none
  | kv :: rest, k => if kv.1 = k then some kv.2 else lookupField rest k

/-- The five type names admitted by the schema (`AllowedTypes` in
`part_010`). -/
inductive AllowedType where
  | int | float | bool | date | str
deriving DecidableEq

/-- The kind of yup primitive returned by `inspectType`: `yup.number()`,
`yup.bool()`, `yup.date()` or `yup.string()`. -/
inductive CastKind where
  | number | boolean | dateK | stringK
deriving DecidableEq

/-- `inspectType` from `part_010`: maps a type name to the yup primitive
used to cast values of that type.  Note that `"int"` is mapped to
`yup.number()` exactly as `"float"` is — the two branches differ only in
their attached error message, which plays no role in casting. -/
def inspectType : AllowedType → CastKind
  | .int => .number
  | .float => .number
  | .bool => .boolean
  | .date => .dateK
  | _ => .stringK

/-- The cast-relevant shape of the schema returned by `getField`
(`part_010`): the primitive kind and whether it is wrapped in
`yup.array().of(...)`.  The `min`/`max`/`oneOf` calls in `getField`
attach validation *tests*, which `cast` (the only operation `adjust`
invokes) never runs; they are modelled separately by the spec-modelled
validator below. -/
structure FieldSchema where
  kind : CastKind
  isArray : Bool
deriving DecidableEq

/-- `getField` from `part_010`: the value field's schema for a parameter
or label.  The source checks `param_data.number_dims === 1`; any other
number of dimensions (including 2 and more) falls into the `else` branch
and is given the bare scalar schema. -/
def getField (t : AllowedType) (number_dims : Nat) : FieldSchema :=
  ⟨inspectType t, number_dims == 1⟩

/-- Casting one primitive value, as yup's `cast` behaves on already-parsed
JSON input: a number schema accepts numbers, a boolean schema booleans, a
string schema strings (yup's stringification of numbers and booleans is
included; its array-to-string coercion is never exercised), a date schema
the ISO date strings the repository uses.  `null` is passed through
unchanged — the delete sentinel of the adjustment format survives
deserialization.  Any other input makes `cast` throw, modelled as
`none`. -/
def castPrim : CastKind → JVal → Option JVal
  | _, .null => some .null
  | .number, .num q => some (.num q)
  | .number, _ => none
  | .boolean, .bool b => some (.bool b)
  | .boolean, _ => none
  | .dateK, .str s => some (.str s)
  | .dateK, _ => none
  | .stringK, .str s => some (.str s)
  | .stringK, .num q => some (.str (toString q))
  | .stringK, .bool b => some (.str (cond b "true" "false"))
  | .stringK, _ => none

/-- Casting a value through the schema produced by `getField`: an array
schema requires a list and casts each element with the primitive; a
scalar schema casts directly. -/
def castField (f : FieldSchema) (v : JVal) : Option JVal :=
  if f.isArray then
    match v with
    | .null => some .null
    | .list xs => (xs.mapM (castPrim f.kind)).map .list
    | _ => none
  else castPrim f.kind v

/-- A bound of a `range` validator: a literal number, or the name of
another parameter (the repository's JSON spec allows both). -/
inductive RangeBound where
  | lit (q : ℚ)
  | ref (name : String)
deriving DecidableEq

/-- The `level` of a validator (`part_010` `ValidatorsSchema`): `"error"`
(the default, blocking) or `"warning"`. -/
inductive Level where
  | error | warning
deriving DecidableEq

/-- A `range` validator with optional `min`/`max` bounds. -/
structure RangeV where
  min : Option RangeBound
  max : Option RangeBound
  level : Level
deriving DecidableEq

/-- The `validators` member of a parameter or label (`part_010`); the
`date_range` member is never exercised by a claim and is omitted. -/
structure Validators where
  range : Option RangeV
  choices : Option (List JVal)
deriving DecidableEq

/-- A parameter (`Param` interface of `part_010`), restricted to the
members that carry behavior: declared type, `number_dims`, validators and
the ordered Value Store.  `title`/`description`/`notes` are pure
documentation. -/
structure Param where
  type : AllowedType
  number_dims : Nat
  validators : Validators
  value : List ValueObject
deriving DecidableEq

/-- A label definition from the schema (`Labels` interface). -/
structure LabelDef where
  type : AllowedType
  validators : Validators
deriving DecidableEq

/-- Lookup of `this.data[param]`. -/
def lookupParam : List (String × Param) → String → Option Param
  | [], _ => none
  | qpr :: rest, p => if qpr.1 = p then some qpr.2 else lookupParam rest p

/-- Lookup of a label definition in the schema. -/
def lookupLabel : List (String × LabelDef) → String → Option LabelDef
  | [], _ => none
  | qld :: rest, l => if qld.1 = l then some qld.2 else lookupLabel rest l

/-! ### The merge operation `updateParam` (`part_009`, lines 128-155) -/

/-- The match test of the `j` loop:
`labelsToCheck.every(label => currVals[j][label] === newValues[i][label])`
where `labelsToCheck` is every key of the incoming object except
`value`. -/
def matchVO (nv : ValueObject) (e : ValueObject) : Bool :=
  nv.fields.all fun kv => decide (lookupField e.fields kv.1 = some kv.2)

/-- The non-null branch of the `j` loop: every matching entry gets its
`value` overwritten in place (`currVals[j].value = newValues[i].value`);
no other key of the entry is touched. -/
def overwriteMatches (nv : ValueObject) (currVals : List ValueObject) : List ValueObject :=
  currVals.map fun e => if matchVO nv e then ⟨e.fields, nv.value⟩ else e

/-- The indices collected into `toDelete`, in ascending loop order
starting at `j`. -/
def matchedIdxs (nv : ValueObject) : List ValueObject → Nat → List Nat
  | [], _ => []
  | e :: rest, j =>
      if matchVO nv e then j :: matchedIdxs nv rest (j + 1)
      else matchedIdxs nv rest (j + 1)

/-- Sequential `currVals.splice(ix, 1)` over the collected indices.  The
source first runs `toDelete.sort(item => -item)`; that one-argument
comparator is not a valid descending comparator and leaves the already
ascending index list in ascending order, so the splices are performed in
ascending order exactly as collected. -/
def spliceAll (xs : List ValueObject) (idxs : List Nat) : List ValueObject :=
  idxs.foldl (fun acc ix => acc.eraseIdx ix) xs

/-- One iteration of the outer `i` loop of `updateParam`: process a single
incoming Value Object against the current value list. -/
def updateParamStep (currVals : List ValueObject) (nv : ValueObject) : List ValueObject :=
  let matchedAtLeastOnce := currVals.any (matchVO nv)
  let written :=
    if nv.value = JVal.null then spliceAll currVals (matchedIdxs nv currVals 0)
    else overwriteMatches nv currVals
  if matchedAtLeastOnce = false ∧ nv.value ≠ JVal.null then written ++ [nv]
  else written

/-- `updateParam` (`part_009`): fold the incoming Value Objects over the
parameter's value list, re-reading the current list on each iteration. -/
def updateParam (currVals : List ValueObject) (newValues : List ValueObject) : List ValueObject :=
  newValues.foldl updateParamStep currVals

/-! ### The `adjust` method (`part_009`, lines 93-102) -/

/-- Casting the label keys of one incoming Value Object through the
`labelFields` of the validator schema: keys that name a declared label
are cast with that label's field schema (labels have no `number_dims`,
so `getField` receives 0), unknown keys — including `_auto` — pass
through unchanged, exactly as yup's object cast leaves unknown keys. -/
def castFields (labels : List (String × LabelDef)) :
    List (String × JVal) → Option (List (String × JVal))
  | [] => some []
  | kv :: rest =>
      match lookupLabel labels kv.1 with
      | none => (castFields labels rest).map (kv :: ·)
      | some ld =>
          match castField (getField ld.type 0) kv.2 with
          | none => none
          | some v' => (castFields labels rest).map ((kv.1, v') :: ·)

/-- Casting one incoming Value Object: its labels through `labelFields`
and its `value` through the parameter's `getField` schema.  A failed cast
anywhere makes `ValidatorSchema.cast` throw, modelled as `none`. -/
def castVO (labels : List (String × LabelDef)) (fs : FieldSchema) (vo : ValueObject) :
    Option ValueObject :=
  match castFields labels vo.fields, castField fs vo.value with
  | some fs', some v' => some ⟨fs', v'⟩
  | _, _ => none

/-- `this.ValidatorSchema.cast(params)` over a whole adjustment.  The
validator schema has a field only for parameters present in the data; an
adjustment key that names no known parameter passes through the cast
unchanged (yup object schemas keep unknown keys as they are).  The label
schemas come from the instance's schema and apply to every parameter's
value objects. -/
def castAdjustment (labels : List (String × LabelDef)) (data : List (String × Param))
    (adj : List (String × List ValueObject)) : Option (List (String × List ValueObject)) :=
  adj.mapM fun pv =>
    match lookupParam data pv.1 with
    | none => some pv
    | some pr => ((pv.2).mapM (castVO labels (getField pr.type pr.number_dims))).map
        fun cvs => (pv.1, cvs)

/-- Replace parameter `p`'s value list, leaving every other parameter
untouched (the mutation `this.data[param].value` performed by
`updateParam`). -/
def updateParamIn : List (String × Param) → String → List ValueObject →
    List (String × Param)
  | [], _, _ => []
  | qpr :: rest, p, vos =>
      if qpr.1 = p then
        (p, ⟨qpr.2.type, qpr.2.number_dims, qpr.2.validators,
          updateParam qpr.2.value vos⟩) :: rest
      else qpr :: updateParamIn rest p vos

/-- How an `adjust` call terminates: normally, with a `TypeError` thrown
by `ValidatorSchema.cast`, or with the `TypeError` thrown by reading
`.value` of `undefined` when the adjustment names an unknown parameter. -/
inductive AdjustOutcome where
  | ok | castError | unknownParam
deriving DecidableEq

/-- The `for (const [param, vos] of Object.entries(parsedParams))` loop of
`adjust`: apply `updateParam` per named parameter; an unknown parameter
aborts the loop by throwing, leaving the updates already made in place. -/
def applyEntries : List (String × Param) → List (String × List ValueObject) →
    List (String × Param) × AdjustOutcome
  | data, [] => (data, .ok)
  | data, (p, vos) :: rest =>
      match lookupParam data p with
      | none => (data, .unknownParam)
      | some _ => applyEntries (updateParamIn data p vos) rest

/-- `Parameters.adjust` (`part_009`): cast the whole adjustment with the
validator schema, then merge each named parameter's value objects.  The
cast happens before any mutation, so a cast failure leaves the data
untouched.  No validation tests are run and no error report is
produced. -/
def adjust (labels : List (String × LabelDef)) (data : List (String × Param))
    (adj : List (String × List ValueObject)) : List (String × Param) × AdjustOutcome :=
  match castAdjustment labels data adj with
  | none => (data, .castError)
  | some parsed => applyEntries data parsed

/-! ### Spec-modelled validation

The TypeScript port never runs the validation tests: `Parameters.errors`
is an empty `// todo` stub and `adjust` only calls `cast`.  The
repository's documentation and the specification describe a Validator
that checks each candidate against the parameter's `range` bounds —
literal bounds, or bounds naming another parameter — and turns
`level = "error"` findings into blocking errors.  The definitions below
model that missing component from the specification. -/

/-- Numeric view of a JSON value, used for range comparisons. -/
def asNum : JVal → Option ℚ
  | .num q => some q
  | _ => none

/-- Modelled from the spec: bound resolution for `range` validators
(missing from src — `getField` only installs literal yup tests and no
cross-parameter lookup exists).  A literal bound is used directly; a
bound naming another parameter resolves that parameter's *current* value
at the matching label-key: the first Value Object of the referenced
parameter all of whose labels agree with the candidate's labels (an
entry with no labels is the referenced parameter's label-free default,
giving the documented fallback when no label overlap is defined). -/
def resolveBound (data : List (String × Param)) (fields : List (String × JVal)) :
    RangeBound → Option ℚ
  | .lit q => some q
  | .ref name =>
      match lookupParam data name with
      | none => none
      | some pr =>
          match pr.value.find? (fun e =>
              e.fields.all fun kv => decide (lookupField fields kv.1 = some kv.2)) with
          | some e => asNum e.value
          | none => none

/-- The kinds of validation findings the claims exercise. -/
inductive VErrKind where
  | rangeMin | rangeMax
deriving DecidableEq

/-- One validation finding: its kind and the validator's declared level. -/
structure VErr where
  kind : VErrKind
  level : Level
deriving DecidableEq

/-- Modelled from the spec: check one numeric candidate value against a
`range` validator, both bounds inclusive (`Must be greater/less than or
equal to`), each finding carrying the validator's level. -/
def validateRange (data : List (String × Param)) (rv : RangeV)
    (fields : List (String × JVal)) (q : ℚ) : List VErr :=
  (match rv.min.bind (resolveBound data fields) with
   | some m => if q < m then [⟨.rangeMin, rv.level⟩] else []
   | none => []) ++
  (match rv.max.bind (resolveBound data fields) with
   | some m => if m < q then [⟨.rangeMax, rv.level⟩] else []
   | none => [])

/-- Modelled from the spec: validate one candidate Value Object against a
parameter's declared `range` validator.  Non-numeric payloads are the
type-coercion layer's concern and produce no range finding. -/
def validateValue (data : List (String × Param)) (pr : Param) (vo : ValueObject) :
    List VErr :=
  match pr.validators.range with
  | none => []
  | some rv =>
      match asNum vo.value with
      | some q => validateRange data rv vo.fields q
      | none => []

/-- Modelled from the spec: the aggregated findings of validating a whole
adjustment against the current data. -/
def specValidate (data : List (String × Param))
    (adj : List (String × List ValueObject)) : List VErr :=
  adj.flatMap fun pv =>
    match lookupParam data pv.1 with
    | none => []
    | some pr => pv.2.flatMap (validateValue data pr)

/-- Modelled from the spec: the blocking subset of the report — findings
whose validator level is `error`. -/
def blockingErrors (data : List (String × Param))
    (adj : List (String × List ValueObject)) : List VErr :=
  (specValidate data adj).filter fun e => e.level = Level.error

/-! ### Spec-modelled Extend/Index Engine

`Parameters.extend` is an empty `// todo` stub in src.  The engine is
modelled from the specification: entries are grouped by the combination
of the non-extend labels, and each combination's line is walked along
the extend label's grid, synthesizing an `_auto` entry at every grid
point with no explicit entry from the nearest preceding value; a
combination with no value yet is left unfilled (no backward fill). -/

/-- One Value Object viewed by the Extend Engine: the combination of the
other labels, the grid point on the extend label, the payload and the
`_auto` marker. -/
structure XEntry (C G V : Type) where
  comb : C
  g : G
  value : V
  auto : Bool
deriving DecidableEq

variable {C G V : Type} [DecidableEq C] [DecidableEq G] [DecidableEq V]

/-- The explicit entry of a combination at a grid point, if any. -/
def lookupEntry (s : List (XEntry C G V)) (c : C) (g : G) : Option (XEntry C G V) :=
  s.find? fun e => decide (e.comb = c) && decide (e.g = g)

/-- Modelled from the spec: the carry-forward walk of one combination's
line along the grid.  An explicit entry is kept as it is and becomes the
value to carry; a gap is filled from the nearest preceding value with
`_auto = true`; before the first value nothing is synthesized. -/
def extendLine (f : G → Option (XEntry C G V)) (c : C) :
    List G → Option V → List (XEntry C G V)
  | [], _ => []
  | g :: rest, last =>
      match f g with
      | some e => e :: extendLine f c rest (some e.value)
      | none =>
          match last with
          | some v => ⟨c, g, v, true⟩ :: extendLine f c rest (some v)
          | none => extendLine f c rest none

/-- The distinct other-label combinations present in a store, in first
appearance order. -/
def combsOf (s : List (XEntry C G V)) : List C :=
  (s.map (·.comb)).dedup

/-- Modelled from the spec: run the Extend Engine over a whole store —
every present combination's line is walked along the grid. -/
def extendStore (s : List (XEntry C G V)) (grid : List G) : List (XEntry C G V) :=
  (combsOf s).flatMap fun c => extendLine (lookupEntry s c) c grid none

/-- Modelled from the spec: one clobber-disabled merge.  A matching entry
still marked `_auto` is overwritten (and becomes caller-supplied); a
matching caller-supplied entry is left untouched; with no match the new
explicit entry is appended. -/
def mergeNoClobber (s : List (XEntry C G V)) (c : C) (g : G) (v : V) :
    List (XEntry C G V) :=
  if s.any (fun e => decide (e.comb = c) && decide (e.g = g)) then
    s.map fun e =>
      if e.comb = c ∧ e.g = g ∧ e.auto = true then ⟨c, g, v, false⟩ else e
  else s ++ [⟨c, g, v, false⟩]

/-- Modelled from the spec: a clobber-disabled adjustment — the incoming
explicit values merged one by one under the no-clobber rule. -/
def adjustNoClobber (s : List (XEntry C G V)) (adjs : List (C × G × V)) :
    List (XEntry C G V) :=
  adjs.foldl (fun acc a => mergeNoClobber acc a.1 a.2.1 a.2.2) s

/-! ### Spec-modelled Array Bridge

`Parameters.toArray` and `Parameters.fromArray` are empty `// todo`
stubs in src; the bridge is modelled from the specification.  The dense
rectangular array is represented in its flattened (row-major) form: the
dimension order is the declared label order and each dimension's index
order is that label's grid order, so the flattened positions enumerate
the cross product of the grids lexicographically. -/

/-- The label-key tuples of the full cross product of the label grids, in
row-major order: the first declared label varies slowest. -/
def labelTuples : List (String × List JVal) → List (List (String × JVal))
  | [] => [[]]
  | (l, grid) :: rest =>
      grid.flatMap fun v => (labelTuples rest).map ((l, v) :: ·)

/-- The value stored at a label-key: the first Value Object whose fields
are exactly that key. -/
def storeVal (s : List ValueObject) (k : List (String × JVal)) : Option JVal :=
  (s.find? fun e => decide (e.fields = k)).map (·.value)

/-- Modelled from the spec: `to_array` — read the store at every cross
product point in grid order; a missing point makes the conversion fail
(`SparseValueError`). -/
def toArray (grids : List (String × List JVal)) (s : List ValueObject) :
    Option (List JVal) :=
  (labelTuples grids).mapM (storeVal s)

/-- Modelled from the spec: `from_array` — zip the array's flattened
positions back to label-key tuples using the same grid orders. -/
def fromArray (grids : List (String × List JVal)) (arr : List JVal) :
    Option (List ValueObject) :=
  if (labelTuples grids).length = arr.length then
    some (List.zipWith (fun t v => ⟨t, v⟩) (labelTuples grids) arr)
  else none

/-- The last incoming Value Object of an adjustment whose fields equal a
given label-key (later writes win); used to state what a merge pass
leaves at each key. -/
def lastWrite : List ValueObject → List (String × JVal) → Option ValueObject
  | [], _ => none
  | nv :: rest, k =>
      match lastWrite rest k with
      | some m => some m
      | none => if nv.fields = k then some nv else none

/-- What one incoming Value Object leaves at its own label-key: nothing
when it is a delete directive, its payload otherwise. -/
def writeEffect (nv : ValueObject) : Option JVal :=
  if nv.value = JVal.null then none else some nv.value

/-- The payload at a label-key, defaulting to `null`; the total companion
of `storeVal`, used to name the array `to_array` produces. -/
def valueAt (s : List ValueObject) (t : List (String × JVal)) : JVal :=
  ((s.find? fun e => decide (e.fields = t)).map (·.value)).getD .null

/-! ### Concrete inputs used by the closed theorems below -/

/-- A parameter of type `float` with the blocking validator
`range: {min: 0, level: "error"}` and default value 1. -/
def c1param : Param :=
  ⟨.float, 0, ⟨some ⟨some (.lit 0), none, .error⟩, none⟩, [⟨[], .num 1⟩]⟩

/-- A one-parameter instance holding `c1param` under the name `test`. -/
def c1data : List (String × Param) := [("test", c1param)]

/-- An adjustment setting `test` to -5, below its declared minimum. -/
def c1adj : List (String × List ValueObject) := [("test", [⟨[], .num (-5)⟩])]

/-- A store holding one auto-generated entry at label `y = 1`. -/
def c2store : List ValueObject := [⟨[("y", .num 1), ("_auto", .bool true)], .num 10⟩]

/-- An incoming caller-supplied Value Object for the same label-key. -/
def c2nv : ValueObject := ⟨[("y", .num 1)], .num 5⟩

/-- An extend-engine store with one combination whose only explicit entry
sits at the second grid point. -/
def c3store : List (XEntry Nat Nat Nat) := [⟨0, 1, 10, false⟩]

/-- An extend-engine store with two combinations, each explicit at the
first grid point. -/
def c3wstore : List (XEntry Nat Nat Nat) := [⟨0, 0, 10, false⟩, ⟨1, 0, 20, false⟩]

/-- An extend-engine store with a caller-supplied entry at grid point 0
and an auto-filled entry at grid point 1. -/
def c4store : List (XEntry Nat Nat Nat) := [⟨0, 0, 10, false⟩, ⟨0, 1, 10, true⟩]

/-- A parameter whose current value at `y = 1` is 100, used as a
cross-parameter bound. -/
def c5other : Param := ⟨.float, 0, ⟨none, none⟩, [⟨[("y", .num 1)], .num 100⟩]⟩

/-- A parameter whose `range.max` names the parameter `other`. -/
def c5param : Param :=
  ⟨.float, 0, ⟨some ⟨none, some (.ref "other"), .error⟩, none⟩, [⟨[("y", .num 1)], .num 50⟩]⟩

/-- The two-parameter instance for the cross-parameter bound example. -/
def c5data : List (String × Param) := [("other", c5other), ("p", c5param)]

/-- A two-label schema: `y` over grid `[1, 2]`, `c` over `["a", "b"]`. -/
def c6grids : List (String × List JVal) :=
  [("y", [.num 1, .num 2]), ("c", [.str "a", .str "b"])]

/-- A dense store over `c6grids`, deliberately out of grid order. -/
def c6store : List ValueObject :=
  [⟨[("y", .num 2), ("c", .str "a")], .num 30⟩,
   ⟨[("y", .num 1), ("c", .str "a")], .num 10⟩,
   ⟨[("y", .num 1), ("c", .str "b")], .num 20⟩,
   ⟨[("y", .num 2), ("c", .str "b")], .num 40⟩]

/-- A schema with a single `int` label `y`. -/
def c7labels : List (String × LabelDef) := [("y", ⟨.int, ⟨none, none⟩⟩)]

/-- A one-parameter instance whose store has one entry at `y = 1`. -/
def c7data : List (String × Param) :=
  [("p", ⟨.int, 0, ⟨none, none⟩, [⟨[("y", .num 1)], .num 10⟩]⟩)]

/-- An adjustment that deletes `y = 1`, re-adds it with value 5, and adds
`y = 2` with value 7 — every value object carries the full label set. -/
def c7adj : List (String × List ValueObject) :=
  [("p", [⟨[("y", .num 1)], .null⟩, ⟨[("y", .num 1)], .num 5⟩, ⟨[("y", .num 2)], .num 7⟩])]

/-- `c7data` after applying `c7adj` once. -/
def c7once : List (String × Param) := (adjust c7labels c7data c7adj).1

/-- `c7data` after applying `c7adj` twice in succession. -/
def c7twice : List (String × Param) := (adjust c7labels c7once c7adj).1

/-- A one-parameter instance used to watch an `int` parameter store a
non-integral number. -/
def c10data : List (String × Param) := [("p", ⟨.int, 0, ⟨none, none⟩, [⟨[], .num 0⟩]⟩)]

/-! ## Helper lemmas on association lists and searches -/

theorem lookupField_self {fs : List (String × JVal)} (hnd : (fs.map Prod.fst).Nodup) :
    ∀ kv ∈ fs, lookupField fs kv.1 = some kv.2 := by
  induction fs with
  | nil => intro kv h; cases h
  | cons hd tl ih =>
      intro kv hkv
      rw [List.map_cons, List.nodup_cons] at hnd
      rcases List.mem_cons.1 hkv with h | h
      · subst h; simp [lookupField]
      · have hne : hd.1 ≠ kv.1 := fun he => hnd.1 (he ▸ List.mem_map.2 ⟨kv, h, rfl⟩)
        simpa [lookupField, hne] using ih hnd.2 kv h

theorem assoc_ext (fs₁ : List (String × JVal)) :
    ∀ fs₂, fs₁.map Prod.fst = fs₂.map Prod.fst → (fs₁.map Prod.fst).Nodup →
    (∀ kv ∈ fs₁, lookupField fs₂ kv.1 = some kv.2) → fs₁ = fs₂ := by
  induction fs₁ with
  | nil =>
      intro fs₂ hmap _ _
      cases fs₂ with
      | nil => rfl
      | cons b t => simp at hmap
  | cons a t ih =>
      intro fs₂ hmap hnd hlook
      cases fs₂ with
      | nil => simp at hmap
      | cons b t₂ =>
          simp only [List.map_cons, List.cons.injEq] at hmap
          rw [List.map_cons, List.nodup_cons] at hnd
          have h1 := hlook a (List.mem_cons_self _ _)
          rw [show lookupField (b :: t₂) a.1
                = if b.1 = a.1 then some b.2 else lookupField t₂ a.1 from rfl,
              if_pos hmap.1.symm] at h1
          have hval : a.2 = b.2 := (Option.some.inj h1).symm
          have htail : ∀ kv ∈ t, lookupField t₂ kv.1 = some kv.2 := by
            intro kv hkv
            have h2 := hlook kv (List.mem_cons_of_mem _ hkv)
            have hne : b.1 ≠ kv.1 := by
              intro he
              exact hnd.1 (hmap.1 ▸ he ▸ List.mem_map.2 ⟨kv, hkv, rfl⟩)
            rwa [show lookupField (b :: t₂) kv.1
                  = if b.1 = kv.1 then some b.2 else lookupField t₂ kv.1 from rfl,
                if_neg hne] at h2
          have hrest := ih t₂ hmap.2 hnd.2 htail
          rw [hrest, Prod.ext hmap.1 hval]

theorem matchVO_iff {L : List String} (hL : L.Nodup) {nv e : ValueObject}
    (hnv : nv.fields.map Prod.fst = L) (he : e.fields.map Prod.fst = L) :
    matchVO nv e = true ↔ nv.fields = e.fields := by
  constructor
  · intro h
    refine assoc_ext nv.fields e.fields (by rw [hnv, he]) (hnv ▸ hL) ?_
    intro kv hkv
    exact of_decide_eq_true (List.all_eq_true.1 h kv hkv)
  · intro h
    apply List.all_eq_true.2
    intro kv hkv
    apply decide_eq_true
    rw [← h]
    exact lookupField_self (hnv ▸ hL) kv hkv

theorem find?_append_none {α : Type} (p : α → Bool) (s₁ : List α)
    (h : ∀ x ∈ s₁, p x = false) (s₂ : List α) :
    (s₁ ++ s₂).find? p = s₂.find? p := by
  induction s₁ with
  | nil => rfl
  | cons a t ih =>
      rw [List.cons_append,
        List.find?_cons_of_neg _ (by simp [h a (List.mem_cons_self _ _)])]
      exact ih (fun x hx => h x (List.mem_cons_of_mem _ hx))

theorem find?_cons_pos {α : Type} (p : α → Bool) (a : α) (l : List α) (h : p a = true) :
    (a :: l).find? p = some a :=
  List.find?_cons_of_pos l h

theorem find?_cons_neg {α : Type} (p : α → Bool) (a : α) (l : List α) (h : p a = false) :
    (a :: l).find? p = l.find? p :=
  List.find?_cons_of_neg l (by simp [h])

theorem find?_cons_drop {α : Type} (p : α → Bool) (e : α) (he : p e = false) :
    ∀ s₁ s₂ : List α, (s₁ ++ e :: s₂).find? p = (s₁ ++ s₂).find? p := by
  intro s₁ s₂
  induction s₁ with
  | nil => rw [List.nil_append, List.nil_append, List.find?_cons_of_neg _ (by simp [he])]
  | cons a t ih =>
      rw [List.cons_append, List.cons_append]
      cases ha : p a with
      | true =>
          rw [List.find?_cons_of_pos _ ha, List.find?_cons_of_pos _ ha]
      | false =>
          rw [List.find?_cons_of_neg _ (by simp [ha]), List.find?_cons_of_neg _ (by simp [ha])]
          exact ih

theorem find?_cons_mid_congr {α : Type} (p : α → Bool) (e e' : α)
    (he : p e = false) (he' : p e' = false) :
    ∀ s₁ s₂ : List α, (s₁ ++ e :: s₂).find? p = (s₁ ++ e' :: s₂).find? p := by
  intro s₁ s₂
  rw [find?_cons_drop p e he, find?_cons_drop p e' he']

theorem find?_key_unique {α β : Type} [DecidableEq β] (key : α → β)
    {s : List α} (hu : (s.map key).Nodup) {e : α} (he : e ∈ s) :
    s.find? (fun x => decide (key x = key e)) = some e := by
  induction s with
  | nil => cases he
  | cons a t ih =>
      rw [List.map_cons, List.nodup_cons] at hu
      rcases List.mem_cons.1 he with h | h
      · subst h
        exact List.find?_cons_of_pos _ (by simp)
      · have hne : key a ≠ key e := fun hk => hu.1 (hk ▸ List.mem_map.2 ⟨e, h, rfl⟩)
        rw [List.find?_cons_of_neg _ (by simp [hne])]
        exact ih hu.2 h

theorem mapM_eq_some_map {α β : Type} (f : α → Option β) (g : α → β) :
    ∀ l : List α, (∀ a ∈ l, f a = some (g a)) → l.mapM f = some (l.map g) := by
  intro l
  induction l with
  | nil => intro _; rfl
  | cons a t ih =>
      intro h
      rw [List.mapM_cons, h a (List.mem_cons_self _ _),
        ih (fun x hx => h x (List.mem_cons_of_mem _ hx)), List.map_cons]
      rfl

theorem zipWith_map_self {α β γ : Type} (f : α → γ → β) (g : α → γ) :
    ∀ l : List α, List.zipWith f l (l.map g) = l.map (fun a => f a (g a)) := by
  intro l
  induction l with
  | nil => rfl
  | cons a t ih => simp [ih]

/-! ## Lemmas on the merge operation -/

theorem updateParam_singleton (s : List ValueObject) (nv : ValueObject) :
    updateParam s [nv] = updateParamStep s nv := rfl

theorem overwriteMatches_of_none {nv : ValueObject} :
    ∀ {s : List ValueObject}, (∀ x ∈ s, matchVO nv x = false) →
      overwriteMatches nv s = s := by
  intro s
  induction s with
  | nil => intro _; rfl
  | cons a t ih =>
      intro h
      simp only [overwriteMatches, List.map_cons]
      rw [if_neg (by simp [h a (List.mem_cons_self _ _)])]
      have ht := ih (fun x hx => h x (List.mem_cons_of_mem _ hx))
      simp only [overwriteMatches] at ht
      rw [ht]

theorem matchedIdxs_of_none {nv : ValueObject} :
    ∀ {s : List ValueObject} (j : Nat), (∀ x ∈ s, matchVO nv x = false) →
      matchedIdxs nv s j = [] := by
  intro s
  induction s with
  | nil => intro j _; rfl
  | cons a t ih =>
      intro j h
      simp only [matchedIdxs]
      rw [if_neg (by simp [h a (List.mem_cons_self _ _)])]
      exact ih (j + 1) (fun x hx => h x (List.mem_cons_of_mem _ hx))

theorem matchedIdxs_decomp {nv e : ValueObject} (hmatch : matchVO nv e = true) :
    ∀ (s₁ : List ValueObject) (s₂ : List ValueObject) (j : Nat),
      (∀ x ∈ s₁, matchVO nv x = false) → (∀ x ∈ s₂, matchVO nv x = false) →
      matchedIdxs nv (s₁ ++ e :: s₂) j = [j + s₁.length] := by
  intro s₁
  induction s₁ with
  | nil =>
      intro s₂ j _ h₂
      show matchedIdxs nv (e :: s₂) j = [j + List.length []]
      simp only [matchedIdxs]
      rw [if_pos hmatch, matchedIdxs_of_none (j + 1) h₂]
      simp
  | cons a t ih =>
      intro s₂ j h₁ h₂
      show matchedIdxs nv (a :: (t ++ e :: s₂)) j = [j + (a :: t).length]
      simp only [matchedIdxs]
      rw [if_neg (by simp [h₁ a (List.mem_cons_self _ _)])]
      rw [ih s₂ (j + 1) (fun x hx => h₁ x (List.mem_cons_of_mem _ hx)) h₂]
      simp only [List.length_cons, List.cons.injEq, and_true]
      omega

theorem eraseIdx_append_middle (e : ValueObject) :
    ∀ (s₁ s₂ : List ValueObject), (s₁ ++ e :: s₂).eraseIdx s₁.length = s₁ ++ s₂ := by
  intro s₁ s₂
  induction s₁ with
  | nil => rfl
  | cons a t ih =>
      show a :: (t ++ e :: s₂).eraseIdx t.length = a :: (t ++ s₂)
      exact congrArg (a :: ·) ih

theorem spliceAll_single (s : List ValueObject) (i : Nat) :
    spliceAll s [i] = s.eraseIdx i := (rfl)

theorem step_no_match {s : List ValueObject} {nv : ValueObject}
    (h : ∀ x ∈ s, matchVO nv x = false) :
    updateParamStep s nv = if nv.value = JVal.null then s else s ++ [nv] := by
  have hany : s.any (matchVO nv) = false := by
    rw [List.any_eq_false]
    intro x hx
    simp [h x hx]
  by_cases hnull : nv.value = JVal.null
  · rw [if_pos hnull]
    simp only [updateParamStep, hany, hnull]
    rw [matchedIdxs_of_none 0 h]
    simp [spliceAll]
  · rw [if_neg hnull]
    simp [updateParamStep, hany, hnull, overwriteMatches_of_none h]

theorem step_match_overwrite {nv e : ValueObject} (hmatch : matchVO nv e = true)
    (hnull : nv.value ≠ JVal.null) (s₁ s₂ : List ValueObject)
    (h₁ : ∀ x ∈ s₁, matchVO nv x = false) (h₂ : ∀ x ∈ s₂, matchVO nv x = false) :
    updateParamStep (s₁ ++ e :: s₂) nv = s₁ ++ ⟨e.fields, nv.value⟩ :: s₂ := by
  have hany : (s₁ ++ e :: s₂).any (matchVO nv) = true := by
    rw [List.any_eq_true]
    exact ⟨e, by simp, hmatch⟩
  have how : overwriteMatches nv (s₁ ++ e :: s₂) = s₁ ++ ⟨e.fields, nv.value⟩ :: s₂ := by
    have e₁ := overwriteMatches_of_none h₁
    have e₂ := overwriteMatches_of_none h₂
    simp only [overwriteMatches] at e₁ e₂ ⊢
    rw [List.map_append, List.map_cons, if_pos hmatch, e₁, e₂]
  simp only [updateParamStep, hany, hnull]
  simp [how, hnull]

theorem step_match_delete {nv e : ValueObject} (hmatch : matchVO nv e = true)
    (hnull : nv.value = JVal.null) (s₁ s₂ : List ValueObject)
    (h₁ : ∀ x ∈ s₁, matchVO nv x = false) (h₂ : ∀ x ∈ s₂, matchVO nv x = false) :
    updateParamStep (s₁ ++ e :: s₂) nv = s₁ ++ s₂ := by
  have hany : (s₁ ++ e :: s₂).any (matchVO nv) = true := by
    rw [List.any_eq_true]
    exact ⟨e, by simp, hmatch⟩
  simp only [updateParamStep, hany, hnull]
  rw [matchedIdxs_decomp hmatch s₁ s₂ 0 h₁ h₂]
  simp only [Nat.zero_add, spliceAll_single, eraseIdx_append_middle]
  simp

/-! ## Claim C2 -/

/-- C2 (counterexample): merging the caller-supplied Value Object
`{y: 1, value: 5}` into a store whose matching entry carries
`_auto = true` overwrites the value in place but does **not** clear the
`_auto` marker — the resulting entry still has `_auto = true`, refuting
the claim that the merge clears `_auto` on overwrite. -/
theorem c2_counterexample :
    updateParam c2store [c2nv]
      = [⟨[("y", .num 1), ("_auto", .bool true)], .num 5⟩]
    ∧ lookupField ((updateParam c2store [c2nv]).headD ⟨[], .null⟩).fields "_auto"
      = some (.bool true) := by decide

/-- C2 (amended): for an incoming Value Object processed by the merge
operation: if exactly one entry matches its label-key, that entry's value
is overwritten in place with every other key of the entry — including any
`_auto` marker — left unchanged (not cleared); if the incoming value is
the null sentinel, the matching entry is removed; and if no entry matches
and the value is not null, the new entry is appended at the end. -/
theorem c2_merge_semantics :
    (∀ (s₁ s₂ : List ValueObject) (e nv : ValueObject),
        (∀ x ∈ s₁, matchVO nv x = false) → matchVO nv e = true →
        (∀ x ∈ s₂, matchVO nv x = false) → nv.value ≠ JVal.null →
        updateParam (s₁ ++ e :: s₂) [nv] = s₁ ++ ⟨e.fields, nv.value⟩ :: s₂)
    ∧ (∀ (s₁ s₂ : List ValueObject) (e nv : ValueObject),
        (∀ x ∈ s₁, matchVO nv x = false) → matchVO nv e = true →
        (∀ x ∈ s₂, matchVO nv x = false) → nv.value = JVal.null →
        updateParam (s₁ ++ e :: s₂) [nv] = s₁ ++ s₂)
    ∧ (∀ (s : List ValueObject) (nv : ValueObject),
        (∀ x ∈ s, matchVO nv x = false) → nv.value ≠ JVal.null →
        updateParam s [nv] = s ++ [nv]) := by
  refine ⟨?_, ?_, ?_⟩
  · intro s₁ s₂ e nv h₁ hm h₂ hnull
    rw [updateParam_singleton]
    exact step_match_overwrite hm hnull s₁ s₂ h₁ h₂
  · intro s₁ s₂ e nv h₁ hm h₂ hnull
    rw [updateParam_singleton]
    exact step_match_delete hm hnull s₁ s₂ h₁ h₂
  · intro s nv h hnull
    rw [updateParam_singleton, step_no_match h, if_neg hnull]

/-- C2 (witness): the three branches of the merge at concrete inputs —
an overwrite that keeps the `_auto` key of the middle entry, a delete of
the middle entry, and an append to a store with no match. -/
theorem c2_merge_semantics_witness :
    updateParam
        [⟨[("y", .num 0)], .num 3⟩,
         ⟨[("y", .num 1), ("_auto", .bool true)], .num 10⟩,
         ⟨[("y", .num 2)], .num 4⟩] [c2nv]
      = [⟨[("y", .num 0)], .num 3⟩,
         ⟨[("y", .num 1), ("_auto", .bool true)], .num 5⟩,
         ⟨[("y", .num 2)], .num 4⟩]
    ∧ updateParam
        [⟨[("y", .num 0)], .num 3⟩,
         ⟨[("y", .num 1), ("_auto", .bool true)], .num 10⟩,
         ⟨[("y", .num 2)], .num 4⟩] [⟨[("y", .num 1)], .null⟩]
      = [⟨[("y", .num 0)], .num 3⟩, ⟨[("y", .num 2)], .num 4⟩]
    ∧ updateParam [⟨[("y", .num 0)], .num 3⟩] [⟨[("y", .num 5)], .num 9⟩]
      = [⟨[("y", .num 0)], .num 3⟩, ⟨[("y", .num 5)], .num 9⟩] := by
  refine ⟨?_, ?_, ?_⟩
  · exact c2_merge_semantics.1 [⟨[("y", .num 0)], .num 3⟩] [⟨[("y", .num 2)], .num 4⟩]
      ⟨[("y", .num 1), ("_auto", .bool true)], .num 10⟩ c2nv
      (by decide) (by decide) (by decide) (by decide)
  · exact c2_merge_semantics.2.1 [⟨[("y", .num 0)], .num 3⟩] [⟨[("y", .num 2)], .num 4⟩]
      ⟨[("y", .num 1), ("_auto", .bool true)], .num 10⟩ ⟨[("y", .num 1)], .null⟩
      (by decide) (by decide) (by decide) (by decide)
  · exact c2_merge_semantics.2.2 [⟨[("y", .num 0)], .num 3⟩] ⟨[("y", .num 5)], .num 9⟩
      (by decide) (by decide)

/-! ## Claims settled by direct evaluation of the embedded code -/

/-- C1 (code evaluation): on the concrete instance `c1data`, the
adjustment `c1adj` sets parameter `test` to -5, below the declared
blocking `range.min` of 0.  The spec-modelled validator reports a
blocking error, yet the `adjust` method of the source completes normally
and leaves the out-of-range value merged into the Value Store: nothing is
raised and the store is not restored. -/
theorem c1_adjust_applies_blocking_error :
    blockingErrors c1data c1adj ≠ []
    ∧ (adjust [] c1data c1adj).2 = AdjustOutcome.ok
    ∧ (adjust [] c1data c1adj).1
        = [("test", ⟨.float, 0, ⟨some ⟨some (.lit 0), none, .error⟩, none⟩,
            [⟨[], .num (-5)⟩]⟩)] := by decide

/-- C7 (counterexample): the adjustment `c7adj` — delete `y = 1`, re-add
it with value 5, add `y = 2` with value 7 — produces no blocking
validation finding, both applications of `adjust` complete normally, yet
applying it twice leaves a Value Store different from applying it once:
after one pass the entries are ordered `[y=1, y=2]`, after two passes
`[y=2, y=1]`. -/
theorem c7_counterexample :
    blockingErrors c7data c7adj = []
    ∧ (adjust c7labels c7data c7adj).2 = AdjustOutcome.ok
    ∧ (adjust c7labels c7once c7adj).2 = AdjustOutcome.ok
    ∧ c7twice ≠ c7once := by decide

/-- C8 (code evaluation): for a parameter declared with
`number_dims = 2` the field schema built by `getField` is the bare scalar
schema, so the cast run by `adjust` accepts a scalar (no structural check
happens) and rejects a correctly nested depth-2 list; only
`number_dims = 1` gets the documented depth check (scalar rejected, flat
list accepted). -/
theorem c8_number_dims_two_not_checked :
    castField (getField .int 2) (.num 5) = some (.num 5)
    ∧ castField (getField .int 2) (.list [.list [.num 1, .num 2]]) = none
    ∧ castField (getField .int 1) (.num 5) = none
    ∧ castField (getField .int 1) (.list [.num 1, .num 2])
        = some (.list [.num 1, .num 2]) := by decide

/-- C10: `inspectType` gives an `int` parameter the same numeric cast
primitive as a `float` parameter — no integrality requirement — so any
rational payload passes the cast unchanged, and adjusting an `int`
parameter with the non-integral value 1.5 stores exactly 1.5. -/
theorem c10_int_accepts_nonintegral :
    inspectType .int = inspectType .float
    ∧ (∀ q : ℚ, castField (getField .int 0) (.num q) = some (.num q))
    ∧ (∀ q : ℚ, (adjust [] c10data [("p", [⟨[], .num q⟩])]).1
        = [("p", ⟨.int, 0, ⟨none, none⟩, [⟨[], .num q⟩]⟩)])
    ∧ (1 : ℚ) < 3 / 2 ∧ (3 / 2 : ℚ) < 2
    ∧ castField (getField .int 0) (.num (3 / 2)) = some (.num (3 / 2)) :=
  ⟨rfl, fun _ => rfl, fun _ => rfl, by norm_num, by norm_num, rfl⟩

/-! ## Claim C9: the frame property of adjust -/

theorem lookupParam_updateParamIn_ne {p q : String} (h : q ≠ p) (vos : List ValueObject) :
    ∀ data : List (String × Param),
      lookupParam (updateParamIn data p vos) q = lookupParam data q := by
  intro data
  induction data with
  | nil => rfl
  | cons a t ih =>
      simp only [updateParamIn]
      by_cases hap : a.1 = p
      · rw [if_pos hap]
        simp only [lookupParam]
        rw [if_neg (fun he : p = q => h he.symm), if_neg (fun he : a.1 = q => h (he ▸ hap))]
      · rw [if_neg hap]
        simp only [lookupParam]
        by_cases haq : a.1 = q
        · rw [if_pos haq, if_pos haq]
        · rw [if_neg haq, if_neg haq]
          exact ih

theorem castAdjustment_keys {labels : List (String × LabelDef)}
    {data : List (String × Param)} :
    ∀ {adj parsed : List (String × List ValueObject)},
      castAdjustment labels data adj = some parsed →
      parsed.map Prod.fst = adj.map Prod.fst := by
  intro adj
  induction adj with
  | nil =>
      intro parsed h
      simp only [castAdjustment, List.mapM_nil] at h
      cases h
      rfl
  | cons a t ih =>
      intro parsed h
      simp only [castAdjustment, List.mapM_cons] at h ih
      rcases Option.bind_eq_some.1 h with ⟨b, hb, h2⟩
      rcases Option.bind_eq_some.1 h2 with ⟨bs, hbs, h3⟩
      cases h3
      have hb1 : b.1 = a.1 := by
        cases hl : lookupParam data a.1 with
        | none => rw [hl] at hb; cases hb; rfl
        | some pr =>
            rw [hl] at hb
            rcases Option.map_eq_some'.1 hb with ⟨cvs, _, hcvs⟩
            rw [← hcvs]
      simp only [List.map_cons, hb1, ih hbs]

theorem applyEntries_frame {q : String} :
    ∀ (entries : List (String × List ValueObject)) (data : List (String × Param)),
      (∀ pv ∈ entries, pv.1 ≠ q) →
      lookupParam (applyEntries data entries).1 q = lookupParam data q := by
  intro entries
  induction entries with
  | nil => intro data _; rfl
  | cons a t ih =>
      intro data h
      simp only [applyEntries]
      cases hl : lookupParam data a.1 with
      | none => rfl
      | some pr =>
          rw [ih (updateParamIn data a.1 a.2) (fun pv hpv => h pv (List.mem_cons_of_mem _ hpv))]
          exact lookupParam_updateParamIn_ne (h a (List.mem_cons_self _ _)).symm a.2 data

/-- C9: the adjust operation mutates only the value lists of parameters
named in the adjustment — whichever way the call ends (normally, with a
cast failure, or aborted on an unknown parameter name), every parameter
not named in the adjustment is found unchanged afterwards. -/
theorem c9_adjust_frame (labels : List (String × LabelDef)) (data : List (String × Param))
    (adj : List (String × List ValueObject)) (q : String)
    (h : ∀ pv ∈ adj, pv.1 ≠ q) :
    lookupParam (adjust labels data adj).1 q = lookupParam data q := by
  unfold adjust
  cases hc : castAdjustment labels data adj with
  | none => rfl
  | some parsed =>
      apply applyEntries_frame parsed data
      intro pv hpv
      have hmem : pv.1 ∈ adj.map Prod.fst := by
        rw [← castAdjustment_keys hc]
        exact List.mem_map.2 ⟨pv, hpv, rfl⟩
      obtain ⟨pv', hpv', heq⟩ := List.mem_map.1 hmem
      exact heq ▸ h pv' hpv'

/-- C9 (witness): adjusting only parameter `p` of the two-parameter
instance `c5data` leaves the parameter `other` exactly as it was. -/
theorem c9_adjust_frame_witness :
    (∀ pv ∈ [("p", [(⟨[("y", .num 1)], .num 60⟩ : ValueObject)])], Prod.fst pv ≠ "other")
    ∧ lookupParam (adjust [] c5data [("p", [⟨[("y", .num 1)], .num 60⟩])]).1 "other"
        = lookupParam c5data "other" :=
  ⟨by decide, c9_adjust_frame [] c5data [("p", [⟨[("y", .num 1)], .num 60⟩])] "other"
    (by decide)⟩

/-! ## Claim C5: range bounds that name another parameter -/

/-- C5: for a parameter whose `range.max` names another parameter (with
blocking level), validating a numeric candidate against the referenced
parameter's current value `m` at the matching label-key yields exactly
one blocking `RangeViolation` finding when the candidate exceeds `m` and
no finding otherwise — in particular a candidate exactly equal to `m` is
accepted, so the bound is inclusive. -/
theorem c5_ref_bound_inclusive (data : List (String × Param)) (other : String)
    (pr opr : Param) (entry : ValueObject) (fields : List (String × JVal)) (q m : ℚ)
    (hrange : pr.validators.range = some ⟨none, some (.ref other), .error⟩)
    (hopr : lookupParam data other = some opr)
    (hfind : opr.value.find? (fun e =>
        e.fields.all fun kv => decide (lookupField fields kv.1 = some kv.2)) = some entry)
    (hval : entry.value = .num m) :
    validateValue data pr ⟨fields, .num q⟩
      = if m < q then [⟨.rangeMax, .error⟩] else [] := by
  simp only [validateValue, hrange, asNum, validateRange, Option.some_bind,
    Option.none_bind, resolveBound, hopr, hfind, hval, List.nil_append]

/-- C5 (witness): against `c5data`, where `p`'s `range.max` names
`other` whose current value at `y = 1` is 100, the candidate 101 is
rejected with a blocking RangeViolation and the candidate 100 (exact
equality with the bound) is accepted. -/
theorem c5_ref_bound_inclusive_witness :
    validateValue c5data c5param ⟨[("y", .num 1)], .num 101⟩ = [⟨.rangeMax, .error⟩]
    ∧ validateValue c5data c5param ⟨[("y", .num 1)], .num 100⟩ = [] := by
  constructor
  · rw [c5_ref_bound_inclusive c5data "other" c5param c5other
        ⟨[("y", .num 1)], .num 100⟩ [("y", .num 1)] 101 100 rfl (by decide) (by decide) rfl,
      if_pos (by norm_num : (100 : ℚ) < 101)]
  · rw [c5_ref_bound_inclusive c5data "other" c5param c5other
        ⟨[("y", .num 1)], .num 100⟩ [("y", .num 1)] 100 100 rfl (by decide) (by decide) rfl,
      if_neg (by norm_num : ¬ (100 : ℚ) < 100)]

/-! ## Claim C7: what a merge pass leaves at each label-key

Throughout, `L` is the schema's label list; the hypotheses say that every
store entry and every incoming Value Object carries exactly the labels
`L` (the spec: adjustment merges always use a full set of label keys) and
that the store's label-keys are unique (the declared store invariant). -/

theorem matchVO_false {L : List String} (hL : L.Nodup) {nv e : ValueObject}
    (hnv : nv.fields.map Prod.fst = L) (he : e.fields.map Prod.fst = L)
    (hne : nv.fields ≠ e.fields) : matchVO nv e = false := by
  cases hm : matchVO nv e with
  | false => rfl
  | true => exact absurd ((matchVO_iff hL hnv he).1 hm) hne

theorem step_shape {L : List String} (hL : L.Nodup) {s : List ValueObject}
    (hs : ∀ e ∈ s, e.fields.map Prod.fst = L) (hu : (s.map ValueObject.fields).Nodup)
    {nv : ValueObject} (hnv : nv.fields.map Prod.fst = L) :
    (∃ s₁ e s₂, s = s₁ ++ e :: s₂ ∧ e.fields = nv.fields
      ∧ (∀ x ∈ s₁ ++ s₂, x.fields ≠ nv.fields)
      ∧ updateParamStep s nv = (if nv.value = JVal.null then s₁ ++ s₂
          else s₁ ++ ⟨e.fields, nv.value⟩ :: s₂))
    ∨ ((∀ x ∈ s, x.fields ≠ nv.fields)
      ∧ updateParamStep s nv = (if nv.value = JVal.null then s else s ++ [nv])) := by
  by_cases hex : ∃ e ∈ s, e.fields = nv.fields
  · obtain ⟨e, hes, hef⟩ := hex
    obtain ⟨s₁, s₂, rfl⟩ := List.append_of_mem hes
    left
    have hmid : (e.fields :: (s₁.map ValueObject.fields ++ s₂.map ValueObject.fields)).Nodup := by
      have h0 := hu
      rw [List.map_append, List.map_cons, List.nodup_middle] at h0
      exact h0
    have hnotin : e.fields ∉ s₁.map ValueObject.fields ++ s₂.map ValueObject.fields :=
      (List.nodup_cons.1 hmid).1
    have hothers : ∀ x ∈ s₁ ++ s₂, x.fields ≠ nv.fields := by
      intro x hx hcontra
      apply hnotin
      have hxmem : x.fields ∈ s₁.map ValueObject.fields ++ s₂.map ValueObject.fields := by
        rcases List.mem_append.1 hx with h | h
        · exact List.mem_append_left _ (List.mem_map.2 ⟨x, h, rfl⟩)
        · exact List.mem_append_right _ (List.mem_map.2 ⟨x, h, rfl⟩)
      exact (hcontra.trans hef.symm) ▸ hxmem
    refine ⟨s₁, e, s₂, rfl, hef, hothers, ?_⟩
    have hmatch : matchVO nv e = true := (matchVO_iff hL hnv (hs e hes)).2 hef.symm
    have hno₁ : ∀ x ∈ s₁, matchVO nv x = false := fun x hx =>
      matchVO_false hL hnv (hs x (List.mem_append_left _ hx))
        (fun hc => hothers x (List.mem_append_left _ hx) hc.symm)
    have hno₂ : ∀ x ∈ s₂, matchVO nv x = false := fun x hx =>
      matchVO_false hL hnv (hs x (List.mem_append_right _ (List.mem_cons_of_mem _ hx)))
        (fun hc => hothers x (List.mem_append_right _ hx) hc.symm)
    by_cases hnull : nv.value = JVal.null
    · rw [if_pos hnull]
      exact step_match_delete hmatch hnull s₁ s₂ hno₁ hno₂
    · rw [if_neg hnull]
      exact step_match_overwrite hmatch hnull s₁ s₂ hno₁ hno₂
  · right
    have hne : ∀ x ∈ s, x.fields ≠ nv.fields := fun x hx hc => hex ⟨x, hx, hc⟩
    refine ⟨hne, ?_⟩
    have hno : ∀ x ∈ s, matchVO nv x = false := fun x hx =>
      matchVO_false hL hnv (hs x hx) (fun hc => hne x hx hc.symm)
    exact step_no_match hno

theorem step_val {L : List String} (hL : L.Nodup) {s : List ValueObject}
    (hs : ∀ e ∈ s, e.fields.map Prod.fst = L) (hu : (s.map ValueObject.fields).Nodup)
    {nv : ValueObject} (hnv : nv.fields.map Prod.fst = L) (k : List (String × JVal)) :
    storeVal (updateParamStep s nv) k
      = if nv.fields = k then writeEffect nv else storeVal s k := by
  rcases step_shape hL hs hu hnv with
    ⟨s₁, e, s₂, hseq, hef, hothers, hstep⟩ | ⟨hne, hstep⟩
  · subst hseq
    rw [hstep]
    by_cases hnull : nv.value = JVal.null
    · rw [if_pos hnull]
      by_cases hk : nv.fields = k
      · rw [if_pos hk]
        have hnone : (s₁ ++ s₂).find? (fun x => decide (x.fields = k)) = none := by
          rw [List.find?_eq_none]
          intro x hx
          simp only [decide_eq_true_eq]
          exact fun hc => hothers x hx (hc.trans hk.symm)
        simp only [storeVal, writeEffect, hnone, if_pos hnull, Option.map_none']
      · rw [if_neg hk]
        have hpe : (fun x : ValueObject => decide (x.fields = k)) e = false := by
          simp only [decide_eq_false_iff_not]
          exact fun hc => hk (hef ▸ hc)
        simp only [storeVal]
        rw [find?_cons_drop (fun x : ValueObject => decide (x.fields = k)) e hpe s₁ s₂]
    · rw [if_neg hnull]
      by_cases hk : nv.fields = k
      · rw [if_pos hk]
        have hno₁ : ∀ x ∈ s₁, (fun x : ValueObject => decide (x.fields = k)) x = false := by
          intro x hx
          simp only [decide_eq_false_iff_not]
          exact fun hc => hothers x (List.mem_append_left _ hx) (hc.trans hk.symm)
        have hpe' : (fun x : ValueObject => decide (x.fields = k))
            (⟨e.fields, nv.value⟩ : ValueObject) = true := by
          simp only [decide_eq_true_eq]
          exact hef.trans hk
        simp only [storeVal, writeEffect, if_neg hnull]
        rw [find?_append_none (fun x : ValueObject => decide (x.fields = k)) s₁ hno₁,
          find?_cons_pos (fun x : ValueObject => decide (x.fields = k))
            ⟨e.fields, nv.value⟩ s₂ hpe']
        rfl
      · rw [if_neg hk]
        have hpe : (fun x : ValueObject => decide (x.fields = k)) e = false := by
          simp only [decide_eq_false_iff_not]
          exact fun hc => hk (hef ▸ hc)
        have hpe' : (fun x : ValueObject => decide (x.fields = k))
            (⟨e.fields, nv.value⟩ : ValueObject) = false := by
          simp only [decide_eq_false_iff_not]
          exact fun hc => hk (hef ▸ hc)
        simp only [storeVal]
        rw [find?_cons_mid_congr (fun x : ValueObject => decide (x.fields = k))
          (⟨e.fields, nv.value⟩ : ValueObject) e hpe' hpe s₁ s₂]
  · rw [hstep]
    by_cases hnull : nv.value = JVal.null
    · rw [if_pos hnull]
      by_cases hk : nv.fields = k
      · rw [if_pos hk]
        have hnone : s.find? (fun x => decide (x.fields = k)) = none := by
          rw [List.find?_eq_none]
          intro x hx
          simp only [decide_eq_true_eq]
          exact fun hc => hne x hx (hc.trans hk.symm)
        simp only [storeVal, writeEffect, hnone, if_pos hnull, Option.map_none']
      · rw [if_neg hk]
    · rw [if_neg hnull]
      by_cases hk : nv.fields = k
      · rw [if_pos hk]
        have hno : ∀ x ∈ s, (fun x : ValueObject => decide (x.fields = k)) x = false := by
          intro x hx
          simp only [decide_eq_false_iff_not]
          exact fun hc => hne x hx (hc.trans hk.symm)
        have hpnv : (fun x : ValueObject => decide (x.fields = k)) nv = true := by
          simp only [decide_eq_true_eq]
          exact hk
        simp only [storeVal, writeEffect, if_neg hnull]
        rw [find?_append_none (fun x : ValueObject => decide (x.fields = k)) s hno,
          find?_cons_pos (fun x : ValueObject => decide (x.fields = k)) nv [] hpnv]
        rfl
      · rw [if_neg hk]
        have hpnv : (fun x : ValueObject => decide (x.fields = k)) nv = false := by
          simp only [decide_eq_false_iff_not]
          exact hk
        simp only [storeVal]
        rw [find?_cons_drop (fun x : ValueObject => decide (x.fields = k)) nv hpnv s [],
          List.append_nil]

theorem step_inv {L : List String} (hL : L.Nodup) {s : List ValueObject}
    (hs : ∀ e ∈ s, e.fields.map Prod.fst = L) (hu : (s.map ValueObject.fields).Nodup)
    {nv : ValueObject} (hnv : nv.fields.map Prod.fst = L) :
    (∀ e ∈ updateParamStep s nv, e.fields.map Prod.fst = L)
    ∧ ((updateParamStep s nv).map ValueObject.fields).Nodup := by
  rcases step_shape hL hs hu hnv with
    ⟨s₁, e, s₂, hseq, hef, hothers, hstep⟩ | ⟨hne, hstep⟩
  · subst hseq
    rw [hstep]
    by_cases hnull : nv.value = JVal.null
    · rw [if_pos hnull]
      have hsub : List.Sublist (s₁ ++ s₂) (s₁ ++ e :: s₂) :=
        List.Sublist.append_left (List.sublist_cons_self e s₂) s₁
      exact ⟨fun x hx => hs x (hsub.mem hx),
        List.Nodup.sublist (hsub.map ValueObject.fields) hu⟩
    · rw [if_neg hnull]
      constructor
      · intro x hx
        rcases List.mem_append.1 hx with h | h
        · exact hs x (List.mem_append_left _ h)
        · rcases List.mem_cons.1 h with h' | h'
          · subst h'
            exact hs e (List.mem_append_right _ (List.mem_cons_self _ _))
          · exact hs x (List.mem_append_right _ (List.mem_cons_of_mem _ h'))
      · have hmap : (s₁ ++ (⟨e.fields, nv.value⟩ : ValueObject) :: s₂).map ValueObject.fields
            = (s₁ ++ e :: s₂).map ValueObject.fields := by
          simp [List.map_append]
        rw [hmap]
        exact hu
  · rw [hstep]
    by_cases hnull : nv.value = JVal.null
    · rw [if_pos hnull]
      exact ⟨hs, hu⟩
    · rw [if_neg hnull]
      constructor
      · intro x hx
        rcases List.mem_append.1 hx with h | h
        · exact hs x h
        · rcases List.mem_cons.1 h with h' | h'
          · subst h'
            exact hnv
          · cases h'
      · rw [List.map_append]
        refine List.Nodup.append hu (by simp) ?_
        intro a ha hb
        rcases List.mem_map.1 ha with ⟨x, hx, rfl⟩
        have hb' : x.fields = nv.fields := by simpa using hb
        exact hne x hx hb'

theorem pass_inv {L : List String} (hL : L.Nodup) :
    ∀ (vos : List ValueObject) (s : List ValueObject),
      (∀ e ∈ s, e.fields.map Prod.fst = L) → (s.map ValueObject.fields).Nodup →
      (∀ nv ∈ vos, nv.fields.map Prod.fst = L) →
      (∀ e ∈ updateParam s vos, e.fields.map Prod.fst = L)
      ∧ ((updateParam s vos).map ValueObject.fields).Nodup := by
  intro vos
  induction vos with
  | nil => intro s hs hu _; exact ⟨hs, hu⟩
  | cons nv rest ih =>
      intro s hs hu hvos
      have hstep := step_inv hL hs hu (hvos nv (List.mem_cons_self _ _))
      show (∀ e ∈ updateParam (updateParamStep s nv) rest, e.fields.map Prod.fst = L) ∧ _
      exact ih _ hstep.1 hstep.2 (fun x hx => hvos x (List.mem_cons_of_mem _ hx))

theorem pass_val {L : List String} (hL : L.Nodup) :
    ∀ (vos : List ValueObject) (s : List ValueObject),
      (∀ e ∈ s, e.fields.map Prod.fst = L) → (s.map ValueObject.fields).Nodup →
      (∀ nv ∈ vos, nv.fields.map Prod.fst = L) → ∀ k,
      storeVal (updateParam s vos) k
        = ((lastWrite vos k).map writeEffect).getD (storeVal s k) := by
  intro vos
  induction vos with
  | nil => intro s _ _ _ k; rfl
  | cons nv rest ih =>
      intro s hs hu hvos k
      have hstep := step_inv hL hs hu (hvos nv (List.mem_cons_self _ _))
      have h1 : storeVal (updateParam s (nv :: rest)) k
          = storeVal (updateParam (updateParamStep s nv) rest) k := rfl
      rw [h1, ih _ hstep.1 hstep.2 (fun x hx => hvos x (List.mem_cons_of_mem _ hx)) k]
      simp only [lastWrite]
      cases hlast : lastWrite rest k with
      | some m => simp
      | none =>
          simp only [Option.map_none', Option.getD_none]
          rw [step_val hL hs hu (hvos nv (List.mem_cons_self _ _)) k]
          by_cases hk : nv.fields = k
          · rw [if_pos hk, if_pos hk]
            simp
          · rw [if_neg hk, if_neg hk]
            simp

/-- C7 (amended): over a store whose entries carry the full label set
`L` with unique label-keys, merging the same adjustment twice leaves the
same value at every label-key as merging it once — the merge is
idempotent at the level of the label-key-to-value mapping (the order of
the entries, however, can differ, see the counterexample). -/
theorem c7_merge_idempotent_on_keys (L : List String) (s vos : List ValueObject)
    (hL : L.Nodup)
    (hs : ∀ e ∈ s, e.fields.map Prod.fst = L)
    (hu : (s.map ValueObject.fields).Nodup)
    (hvos : ∀ nv ∈ vos, nv.fields.map Prod.fst = L) (k : List (String × JVal)) :
    storeVal (updateParam (updateParam s vos) vos) k = storeVal (updateParam s vos) k := by
  have hinv := pass_inv hL vos s hs hu hvos
  rw [pass_val hL vos (updateParam s vos) hinv.1 hinv.2 hvos k,
      pass_val hL vos s hs hu hvos k]
  cases hlast : lastWrite vos k <;> simp [hlast]

/-- C7 (witness): the idempotence-on-keys theorem applied to the store
and adjustment of the counterexample — at the label-key `y = 1` both the
once-merged and the twice-merged store hold the same value. -/
theorem c7_merge_idempotent_on_keys_witness :
    storeVal (updateParam (updateParam [⟨[("y", .num 1)], .num 10⟩]
        [⟨[("y", .num 1)], .null⟩, ⟨[("y", .num 1)], .num 5⟩, ⟨[("y", .num 2)], .num 7⟩])
        [⟨[("y", .num 1)], .null⟩, ⟨[("y", .num 1)], .num 5⟩, ⟨[("y", .num 2)], .num 7⟩])
        [("y", .num 1)]
      = storeVal (updateParam [⟨[("y", .num 1)], .num 10⟩]
        [⟨[("y", .num 1)], .null⟩, ⟨[("y", .num 1)], .num 5⟩, ⟨[("y", .num 2)], .num 7⟩])
        [("y", .num 1)] :=
  c7_merge_idempotent_on_keys ["y"] [⟨[("y", .num 1)], .num 10⟩]
    [⟨[("y", .num 1)], .null⟩, ⟨[("y", .num 1)], .num 5⟩, ⟨[("y", .num 2)], .num 7⟩]
    (by decide) (by decide) (by decide) (by decide) [("y", .num 1)]

/-! ## Claim C3: density of the extended store -/

theorem lookupEntry_props {s : List (XEntry C G V)} {c : C} {g : G} {e : XEntry C G V}
    (h : lookupEntry s c g = some e) : e.comb = c ∧ e.g = g := by
  have hp := List.find?_some h
  simp only [Bool.and_eq_true, decide_eq_true_eq] at hp
  exact hp

theorem extendLine_length_some (f : G → Option (XEntry C G V)) (c : C) :
    ∀ (gs : List G) (v : V), (extendLine f c gs (some v)).length = gs.length := by
  intro gs
  induction gs with
  | nil => intro v; rfl
  | cons g grest ih =>
      intro v
      cases hfg : f g with
      | some e =>
          simp only [extendLine, hfg, List.length_cons, ih]
      | none =>
          simp only [extendLine, hfg, List.length_cons, ih]

theorem extendLine_first_length (f : G → Option (XEntry C G V)) (c : C)
    (g0 : G) (rest : List G) (e : XEntry C G V) (hfg : f g0 = some e) :
    (extendLine f c (g0 :: rest) none).length = rest.length + 1 := by
  simp only [extendLine, hfg, List.length_cons, extendLine_length_some]

theorem extendLine_comb (f : G → Option (XEntry C G V)) (c : C)
    (hf : ∀ (g : G) (e : XEntry C G V), f g = some e → e.comb = c) :
    ∀ (gs : List G) (last : Option V) (x : XEntry C G V),
      x ∈ extendLine f c gs last → x.comb = c := by
  intro gs
  induction gs with
  | nil => intro last x hx; cases hx
  | cons g grest ih =>
      intro last x hx
      cases hfg : f g with
      | some e =>
          simp only [extendLine, hfg] at hx
          rcases List.mem_cons.1 hx with h | h
          · rw [h]
            exact hf g e hfg
          · exact ih _ x h
      | none =>
          cases last with
          | some v =>
              simp only [extendLine, hfg] at hx
              rcases List.mem_cons.1 hx with h | h
              · subst h
                rfl
              · exact ih _ x h
          | none =>
              simp only [extendLine, hfg] at hx
              exact ih _ x hx

theorem extendLine_map_g (f : G → Option (XEntry C G V)) (c : C)
    (hf : ∀ (g : G) (e : XEntry C G V), f g = some e → e.g = g) :
    ∀ (gs : List G) (v : V),
      (extendLine f c gs (some v)).map (fun x => x.g) = gs := by
  intro gs
  induction gs with
  | nil => intro v; rfl
  | cons g grest ih =>
      intro v
      cases hfg : f g with
      | some e =>
          simp only [extendLine, hfg, List.map_cons, ih]
          rw [hf g e hfg]
      | none =>
          simp only [extendLine, hfg, List.map_cons, ih]

theorem extendLine_first_map_g (f : G → Option (XEntry C G V)) (c : C)
    (hf : ∀ (g : G) (e : XEntry C G V), f g = some e → e.g = g)
    (g0 : G) (rest : List G) (e : XEntry C G V) (hfg : f g0 = some e) :
    (extendLine f c (g0 :: rest) none).map (fun x => x.g) = g0 :: rest := by
  simp only [extendLine, hfg, List.map_cons]
  rw [hf g0 e hfg, extendLine_map_g f c hf rest e.value]

theorem countP_congr_here {α : Type} {p q : α → Bool} :
    ∀ l : List α, (∀ a ∈ l, p a = q a) → l.countP p = l.countP q := by
  intro l
  induction l with
  | nil => intro _; rfl
  | cons a t ih =>
      intro h
      rw [List.countP_cons, List.countP_cons, h a (List.mem_cons_self _ _),
        ih (fun x hx => h x (List.mem_cons_of_mem _ hx))]

theorem countP_map_here {α β : Type} (p : β → Bool) (f : α → β) :
    ∀ l : List α, (l.map f).countP p = l.countP (fun a => p (f a)) := by
  intro l
  induction l with
  | nil => rfl
  | cons a t ih => rw [List.map_cons, List.countP_cons, List.countP_cons, ih]

theorem countP_eq_one_of_nodup {l : List G} (hn : l.Nodup) {g : G} (hg : g ∈ l) :
    l.countP (fun y => decide (y = g)) = 1 := by
  induction l with
  | nil => cases hg
  | cons a t ih =>
      rw [List.nodup_cons] at hn
      rw [List.countP_cons]
      rcases List.mem_cons.1 hg with h | h
      · subst h
        rw [List.countP_eq_zero.2 ?_]
        · simp
        · intro x hx
          simp only [decide_eq_true_eq]
          exact fun he => hn.1 (he ▸ hx)
      · have hag : ¬ a = g := fun he => hn.1 (he ▸ h)
        rw [ih hn.2 h]
        simp [hag]

theorem lines_length (s : List (XEntry C G V)) (g0 : G) (rest : List G) :
    ∀ cs : List C, (∀ c' ∈ cs, (lookupEntry s c' g0).isSome = true) →
      (cs.flatMap fun c' => extendLine (lookupEntry s c') c' (g0 :: rest) none).length
        = cs.length * (g0 :: rest).length := by
  intro cs
  induction cs with
  | nil => intro _; simp
  | cons c₀ cs' ih =>
      intro hfirst
      rw [List.flatMap_cons, List.length_append,
        ih (fun c' hc' => hfirst c' (List.mem_cons_of_mem _ hc'))]
      obtain ⟨e, hfg⟩ := Option.isSome_iff_exists.1 (hfirst c₀ (List.mem_cons_self _ _))
      rw [extendLine_first_length (lookupEntry s c₀) c₀ g0 rest e hfg]
      simp only [List.length_cons, Nat.succ_mul]
      omega

theorem lines_countP_zero (s : List (XEntry C G V)) (g0 : G) (rest : List G)
    (c : C) (g : G) :
    ∀ cs : List C, c ∉ cs →
      ((cs.flatMap fun c' => extendLine (lookupEntry s c') c' (g0 :: rest) none).countP
        (fun x => decide (x.comb = c) && decide (x.g = g))) = 0 := by
  intro cs hc
  rw [List.countP_eq_zero]
  intro x hx
  rcases List.mem_flatMap.1 hx with ⟨c', hc', hxline⟩
  have hcomb : x.comb = c' :=
    extendLine_comb _ _ (fun g' e h => (lookupEntry_props h).1) _ _ x hxline
  simp only [Bool.and_eq_true, decide_eq_true_eq, not_and]
  intro hxc
  exact fun _ => hc ((hcomb.symm.trans hxc) ▸ hc')

theorem lines_countP (s : List (XEntry C G V)) (g0 : G) (rest : List G)
    (hnodup : (g0 :: rest).Nodup) :
    ∀ cs : List C, cs.Nodup → (∀ c' ∈ cs, (lookupEntry s c' g0).isSome = true) →
      ∀ c ∈ cs, ∀ g ∈ g0 :: rest,
        ((cs.flatMap fun c' => extendLine (lookupEntry s c') c' (g0 :: rest) none).countP
          (fun x => decide (x.comb = c) && decide (x.g = g))) = 1 := by
  intro cs
  induction cs with
  | nil => intro _ _ c hc; cases hc
  | cons c₀ cs' ih =>
      intro hnd hfirst c hc g hg
      rw [List.nodup_cons] at hnd
      rw [List.flatMap_cons, List.countP_append]
      rcases List.mem_cons.1 hc with hcc | hcc
      · subst hcc
        rw [lines_countP_zero s g0 rest c g cs' hnd.1, Nat.add_zero]
        have hfc : ∀ (g' : G) (e : XEntry C G V),
            lookupEntry s c g' = some e → e.comb = c :=
          fun g' e h => (lookupEntry_props h).1
        have hfg' : ∀ (g' : G) (e : XEntry C G V),
            lookupEntry s c g' = some e → e.g = g' :=
          fun g' e h => (lookupEntry_props h).2
        have hcong : (extendLine (lookupEntry s c) c (g0 :: rest) none).countP
            (fun x => decide (x.comb = c) && decide (x.g = g))
            = (extendLine (lookupEntry s c) c (g0 :: rest) none).countP
              (fun x => decide (x.g = g)) := by
          apply countP_congr_here
          intro x hxline
          have hxc := extendLine_comb _ _ hfc _ _ x hxline
          simp [hxc]
        rw [hcong]
        obtain ⟨e, hfg⟩ := Option.isSome_iff_exists.1 (hfirst c (List.mem_cons_self _ _))
        have hmg := extendLine_first_map_g (lookupEntry s c) c hfg' g0 rest e hfg
        have h1 : ((extendLine (lookupEntry s c) c (g0 :: rest) none).map
            (fun x => x.g)).countP (fun y => decide (y = g)) = 1 := by
          rw [hmg]
          exact countP_eq_one_of_nodup hnodup hg
        rw [countP_map_here] at h1
        exact h1
      · have hc₀ : (extendLine (lookupEntry s c₀) c₀ (g0 :: rest) none).countP
            (fun x => decide (x.comb = c) && decide (x.g = g)) = 0 := by
          rw [List.countP_eq_zero]
          intro x hxline
          have hcomb : x.comb = c₀ :=
            extendLine_comb _ _ (fun g' e h => (lookupEntry_props h).1) _ _ x hxline
          simp only [Bool.and_eq_true, decide_eq_true_eq, not_and]
          intro hxc
          exact fun _ => hnd.1 ((hcomb.symm.trans hxc) ▸ hcc)
        rw [hc₀, Nat.zero_add]
        exact ih hnd.2 (fun c' hc' => hfirst c' (List.mem_cons_of_mem _ hc')) c hcc g hg

/-- C3 (counterexample): a store with one combination (`K = 1`) whose only
explicit entry sits at the *second* point of the two-point grid
(`N = 2`).  The spec's walk performs no backward fill, so the extended
store holds a single entry — not `N × K = 2` — refuting the claim for
combinations whose first explicit entry comes after the first grid
point. -/
theorem c3_counterexample :
    (combsOf c3store).length = 1
    ∧ (∀ c ∈ combsOf c3store, ∃ e ∈ c3store, e.comb = c ∧ e.auto = false)
    ∧ extendStore c3store [0, 1] = [⟨0, 1, 10, false⟩]
    ∧ (extendStore c3store [0, 1]).length ≠ 1 * 2 := by decide

/-- C3 (amended): after running the Extend Engine over a grid
`g0 :: rest` with `N` points, if each of the `K` present combinations has
an explicit entry at the *first* grid point, the extended store contains
exactly `N × K` entries, and (for a duplicate-free grid) every grid point
of every present combination carries exactly one entry — no gaps and no
duplicates.  A combination whose first explicit entry comes later is
filled only from that entry onward (no backward fill) and contributes
fewer entries, as the counterexample shows. -/
theorem c3_extend_density (g0 : G) (rest : List G) (s : List (XEntry C G V))
    (hnodup : (g0 :: rest).Nodup)
    (hfirst : ∀ c ∈ combsOf s, (lookupEntry s c g0).isSome = true) :
    (extendStore s (g0 :: rest)).length = (combsOf s).length * (g0 :: rest).length
    ∧ ∀ c ∈ combsOf s, ∀ g ∈ g0 :: rest,
        ((extendStore s (g0 :: rest)).countP
          (fun x => decide (x.comb = c) && decide (x.g = g))) = 1 := by
  constructor
  · exact lines_length s g0 rest (combsOf s) hfirst
  · intro c hc g hg
    exact lines_countP s g0 rest hnodup (combsOf s) (List.nodup_dedup _) hfirst c hc g hg

/-- C3 (witness): two combinations, each explicit at the first point of
the two-point grid `[0, 1]` — the extended store has `2 × 2 = 4` entries
and exactly one entry per combination and grid point. -/
theorem c3_extend_density_witness :
    ([0, 1] : List Nat).Nodup
    ∧ (∀ c ∈ combsOf c3wstore, (lookupEntry c3wstore c 0).isSome = true)
    ∧ ((extendStore c3wstore [0, 1]).length = (combsOf c3wstore).length * 2
       ∧ ∀ c ∈ combsOf c3wstore, ∀ g ∈ ([0, 1] : List Nat),
          ((extendStore c3wstore [0, 1]).countP
            (fun x => decide (x.comb = c) && decide (x.g = g))) = 1) :=
  ⟨by decide, by decide, c3_extend_density 0 [1] c3wstore (by decide) (by decide)⟩

/-! ## Claim C4: clobber-disabled adjustments never touch explicit entries -/

theorem mergeNoClobber_inv {s : List (XEntry C G V)} {c : C} {g : G} {v : V}
    (hu : (s.map fun x => (x.comb, x.g)).Nodup) :
    ((mergeNoClobber s c g v).map fun x => (x.comb, x.g)).Nodup := by
  unfold mergeNoClobber
  cases hex : s.any (fun e => decide (e.comb = c) && decide (e.g = g)) with
  | true =>
      rw [if_pos rfl, List.map_map]
      have hmapeq : s.map ((fun x : XEntry C G V => (x.comb, x.g)) ∘
          (fun e => if e.comb = c ∧ e.g = g ∧ e.auto = true then ⟨c, g, v, false⟩ else e))
          = s.map (fun x => (x.comb, x.g)) := by
        apply List.map_congr_left
        intro a ha
        by_cases hcond : a.comb = c ∧ a.g = g ∧ a.auto = true
        · simp only [Function.comp_apply, if_pos hcond]
          rw [hcond.1, hcond.2.1]
        · simp only [Function.comp_apply, if_neg hcond]
      rw [hmapeq]
      exact hu
  | false =>
      rw [if_neg (by simp), List.map_append]
      refine List.Nodup.append hu (by simp) ?_
      intro a ha hb
      have hb' : a = (c, g) := by simpa using hb
      subst hb'
      rcases List.mem_map.1 ha with ⟨x, hx, hxa⟩
      have hany := List.any_eq_false.1 hex x hx
      apply hany
      simp only [Bool.and_eq_true, decide_eq_true_eq]
      exact ⟨congrArg Prod.fst hxa, congrArg Prod.snd hxa⟩

theorem adjustNoClobber_inv : ∀ (adjs : List (C × G × V)) (s : List (XEntry C G V)),
    (s.map fun x => (x.comb, x.g)).Nodup →
    ((adjustNoClobber s adjs).map fun x => (x.comb, x.g)).Nodup := by
  intro adjs
  induction adjs with
  | nil => intro s hu; exact hu
  | cons a rest ih => intro s hu; exact ih _ (mergeNoClobber_inv hu)

theorem mergeNoClobber_mem {s : List (XEntry C G V)} {e : XEntry C G V}
    (he : e ∈ s) (hauto : e.auto = false) (c : C) (g : G) (v : V) :
    e ∈ mergeNoClobber s c g v := by
  unfold mergeNoClobber
  cases hex : s.any (fun x => decide (x.comb = c) && decide (x.g = g)) with
  | true =>
      rw [if_pos rfl]
      refine List.mem_map.2 ⟨e, he, ?_⟩
      rw [if_neg]
      intro hcond
      rw [hauto] at hcond
      exact Bool.false_ne_true hcond.2.2
  | false =>
      rw [if_neg (by simp)]
      exact List.mem_append_left _ he

theorem adjustNoClobber_mem : ∀ (adjs : List (C × G × V)) (s : List (XEntry C G V))
    {e : XEntry C G V}, e ∈ s → e.auto = false → e ∈ adjustNoClobber s adjs := by
  intro adjs
  induction adjs with
  | nil => intro s e he _; exact he
  | cons a rest ih =>
      intro s e he hauto
      exact ih _ (mergeNoClobber_mem he hauto a.1 a.2.1 a.2.2) hauto

theorem lookupEntry_unique {s : List (XEntry C G V)}
    (hu : (s.map fun x => (x.comb, x.g)).Nodup) {e : XEntry C G V} (he : e ∈ s) :
    lookupEntry s e.comb e.g = some e := by
  induction s with
  | nil => cases he
  | cons a t ih =>
      rw [List.map_cons, List.nodup_cons] at hu
      rcases List.mem_cons.1 he with h | h
      · subst h
        exact find?_cons_pos _ e t (by simp)
      · have hne : (a.comb, a.g) ≠ (e.comb, e.g) :=
          fun hk => hu.1 (hk ▸ List.mem_map.2 ⟨e, h, rfl⟩)
        have hpa : (fun x : XEntry C G V =>
            decide (x.comb = e.comb) && decide (x.g = e.g)) a = false := by
          by_cases hc : a.comb = e.comb
          · by_cases hgg : a.g = e.g
            · exact absurd (Prod.ext hc hgg) hne
            · simp [hgg]
          · simp [hc]
        show (a :: t).find? (fun x : XEntry C G V =>
            decide (x.comb = e.comb) && decide (x.g = e.g)) = some e
        rw [find?_cons_neg (fun x : XEntry C G V =>
          decide (x.comb = e.comb) && decide (x.g = e.g)) a t hpa]
        exact ih hu.2 h

theorem extendLine_mem_of_found (f : G → Option (XEntry C G V)) (c : C)
    {e : XEntry C G V} (hfe : f e.g = some e) :
    ∀ gs : List G, e.g ∈ gs → ∀ last, e ∈ extendLine f c gs last := by
  intro gs
  induction gs with
  | nil => intro h; cases h
  | cons g grest ih =>
      intro hmem last
      by_cases hg : g = e.g
      · subst hg
        simp only [extendLine, hfe]
        exact List.mem_cons_self _ _
      · have hmem' : e.g ∈ grest := by
          rcases List.mem_cons.1 hmem with h | h
          · exact absurd h.symm hg
          · exact h
        cases hfg : f g with
        | some e' =>
            simp only [extendLine, hfg]
            exact List.mem_cons_of_mem _ (ih hmem' _)
        | none =>
            cases last with
            | some v =>
                simp only [extendLine, hfg]
                exact List.mem_cons_of_mem _ (ih hmem' _)
            | none =>
                simp only [extendLine, hfg]
                exact ih hmem' _

theorem extendLine_char (f : G → Option (XEntry C G V)) (c : C)
    (hf : ∀ (g : G) (e : XEntry C G V), f g = some e → e.g = g) :
    ∀ (gs : List G) (last : Option V) (x : XEntry C G V), x ∈ extendLine f c gs last →
      f x.g = some x ∨ (x.auto = true ∧ f x.g = none) := by
  intro gs
  induction gs with
  | nil => intro last x hx; cases hx
  | cons g grest ih =>
      intro last x hx
      cases hfg : f g with
      | some e =>
          simp only [extendLine, hfg] at hx
          rcases List.mem_cons.1 hx with h | h
          · left
            rw [h, hf g e hfg]
            exact hfg
          · exact ih _ x h
      | none =>
          cases last with
          | some v =>
              simp only [extendLine, hfg] at hx
              rcases List.mem_cons.1 hx with h | h
              · right
                rw [h]
                exact ⟨rfl, hfg⟩
              · exact ih _ x h
          | none =>
              simp only [extendLine, hfg] at hx
              exact ih _ x hx

/-- C4: over a store with unique (combination, grid point) keys, a
clobber-disabled adjustment followed by the regeneration pass of the
Extend Engine preserves every caller-supplied entry (one not marked
`_auto`): the entry reappears in the final store with its value
unchanged, and it is the only entry at its combination and grid point. -/
theorem c4_noclobber_preserves_explicit (s : List (XEntry C G V))
    (adjs : List (C × G × V)) (grid : List G) (e : XEntry C G V)
    (hu : (s.map fun x => (x.comb, x.g)).Nodup)
    (he : e ∈ s) (hauto : e.auto = false) (hg : e.g ∈ grid) :
    e ∈ extendStore (adjustNoClobber s adjs) grid
    ∧ ∀ x ∈ extendStore (adjustNoClobber s adjs) grid,
        x.comb = e.comb → x.g = e.g → x = e := by
  have hmem : e ∈ adjustNoClobber s adjs := adjustNoClobber_mem adjs s he hauto
  have hinv : ((adjustNoClobber s adjs).map fun x => (x.comb, x.g)).Nodup :=
    adjustNoClobber_inv adjs s hu
  have hfind : lookupEntry (adjustNoClobber s adjs) e.comb e.g = some e :=
    lookupEntry_unique hinv hmem
  constructor
  · apply List.mem_flatMap.2
    refine ⟨e.comb, ?_, ?_⟩
    · exact List.mem_dedup.2 (List.mem_map.2 ⟨e, hmem, rfl⟩)
    · exact extendLine_mem_of_found _ _ hfind grid hg none
  · intro x hx hxc hxg
    rcases List.mem_flatMap.1 hx with ⟨c', hc', hxline⟩
    have hxcomb : x.comb = c' :=
      extendLine_comb _ _ (fun g' e' h => (lookupEntry_props h).1) _ _ x hxline
    have hc'e : c' = e.comb := hxcomb.symm.trans hxc
    subst hc'e
    rcases extendLine_char _ _ (fun g' e' h => (lookupEntry_props h).2) _ _ x hxline with
      hfx | ⟨hxauto, hfx⟩
    · rw [hxg, hfind] at hfx
      exact (Option.some.inj hfx).symm
    · rw [hxg, hfind] at hfx
      cases hfx

/-- C4 (witness): the caller-supplied entry at grid point 0 of `c4store`
survives — with value 10 and as the unique entry at its key — a
clobber-disabled adjustment that targets both grid points, followed by
regeneration over the grid `[0, 1]`. -/
theorem c4_noclobber_preserves_explicit_witness :
    (⟨0, 0, 10, false⟩ : XEntry Nat Nat Nat)
        ∈ extendStore (adjustNoClobber c4store [(0, 0, 99), (0, 1, 99)]) [0, 1]
    ∧ ∀ x ∈ extendStore (adjustNoClobber c4store [(0, 0, 99), (0, 1, 99)]) [0, 1],
        x.comb = (⟨0, 0, 10, false⟩ : XEntry Nat Nat Nat).comb →
        x.g = (⟨0, 0, 10, false⟩ : XEntry Nat Nat Nat).g →
        x = ⟨0, 0, 10, false⟩ :=
  c4_noclobber_preserves_explicit c4store [(0, 0, 99), (0, 1, 99)] [0, 1]
    ⟨0, 0, 10, false⟩ (by decide) (by decide) (by decide) (by decide)

/-! ## Claim C6: the array round trip -/

theorem storeVal_of_unique {s : List ValueObject}
    (hu : (s.map ValueObject.fields).Nodup) {e : ValueObject} (he : e ∈ s) :
    storeVal s e.fields = some e.value := by
  unfold storeVal
  rw [find?_key_unique ValueObject.fields hu he]
  rfl

theorem valueAt_of_unique {s : List ValueObject}
    (hu : (s.map ValueObject.fields).Nodup) {e : ValueObject} (he : e ∈ s) :
    valueAt s e.fields = e.value := by
  unfold valueAt
  rw [find?_key_unique ValueObject.fields hu he]
  rfl

/-- C6: for a Value Store that is dense over the full cross product of
the label grids (every label tuple carried by exactly one entry, every
entry's label-key a grid tuple), `to_array` succeeds and feeding its
array back through `from_array` returns a Value Object list containing
exactly the same label-key-to-value pairs as the original store: the two
conversions are mutually inverse up to entry order. -/
theorem c6_array_round_trip (grids : List (String × List JVal)) (s : List ValueObject)
    (hmem : ∀ e ∈ s, e.fields ∈ labelTuples grids)
    (hu : (s.map ValueObject.fields).Nodup)
    (hfull : ∀ t ∈ labelTuples grids, ∃ e ∈ s, e.fields = t) :
    ∃ arr, toArray grids s = some arr
      ∧ ∃ s', fromArray grids arr = some s'
        ∧ ∀ e : ValueObject, e ∈ s' ↔ e ∈ s := by
  refine ⟨(labelTuples grids).map (valueAt s), ?_, ?_⟩
  · apply mapM_eq_some_map
    intro t ht
    obtain ⟨e, he, hef⟩ := hfull t ht
    subst hef
    rw [storeVal_of_unique hu he, valueAt_of_unique hu he]
  · refine ⟨(labelTuples grids).map (fun t => ⟨t, valueAt s t⟩), ?_, ?_⟩
    · unfold fromArray
      rw [if_pos (by rw [List.length_map])]
      congr 1
      rw [zipWith_map_self]
    · intro e
      constructor
      · intro hes'
        rcases List.mem_map.1 hes' with ⟨t, ht, rfl⟩
        obtain ⟨e', he', hef⟩ := hfull t ht
        subst hef
        rw [valueAt_of_unique hu he']
        exact he'
      · intro hes
        apply List.mem_map.2
        refine ⟨e.fields, hmem e hes, ?_⟩
        rw [valueAt_of_unique hu hes]

/-- C6 (witness): the dense two-label store `c6store` (entries
deliberately out of grid order) satisfies the density hypotheses, and
`from_array (to_array)` returns a list with exactly its entries. -/
theorem c6_array_round_trip_witness :
    (∀ e ∈ c6store, e.fields ∈ labelTuples c6grids)
    ∧ (c6store.map ValueObject.fields).Nodup
    ∧ ∃ arr, toArray c6grids c6store = some arr
        ∧ ∃ s', fromArray c6grids arr = some s'
          ∧ ∀ e : ValueObject, e ∈ s' ↔ e ∈ c6store :=
  ⟨by decide, by decide,
    c6_array_round_trip c6grids c6store (by decide) (by decide) (by decide)⟩

end ParamTools
